import Mathlib

/-!
Verification of the rdm6300 RFID reader library (framing / decoding /
session state machine), shallowly embedded from `rdm6300/reader.py`.

Machine integers are modelled as `Nat` (Python ints are unbounded, and
all quantities here are non-negative).  Timestamps (`time.time()`) are
modelled as `Nat`; Python truthiness of timestamps and intervals
(`if self.last_read_at:`, `if self.heartbeat_interval:`, treating both
`None` and `0`/`0.0` as false) is modelled explicitly.
-/

namespace Rdm6300

/-- `CardData` namedtuple from `rdm6300/reader.py`: value, checksum, type,
is_valid.  Equality is structural, as for Python namedtuples. -/
structure CardData where
  value : Nat
  checksum : Nat
  type : Nat
  is_valid : Bool
deriving DecidableEq, Repr

/-- `BaseReader._fragment_to_int` with the default `bits_per_item=4`:
big-endian shift/or accumulation of the items. -/
def fragment_to_int (fragment : List Nat) : Nat :=
  fragment.foldl (fun value item => (value <<< 4) ||| item) 0

/-- `BaseReader._parse_fragment`: `None` unless the fragment has exactly 12
nibbles; otherwise XOR the five bytes formed from nibble pairs at positions
0,2,4,6,8 of the first ten nibbles, read the received checksum from nibbles
10..11, and build the `CardData`. -/
def parse_fragment (read_fragment : List Nat) : Option CardData :=
  if read_fragment.length ≠ 12 then none
  else
    let calculatedChecksum := (List.range 5).foldl
      (fun acc i =>
        acc ^^^ ((read_fragment.getD (2 * i) 0 <<< 4) ||| read_fragment.getD (2 * i + 1) 0)) 0
    let receivedChecksum := fragment_to_int ((read_fragment.drop 10).take 2)
    some { value := fragment_to_int ((read_fragment.drop 2).take 8)
           checksum := receivedChecksum
           is_valid := receivedChecksum == calculatedChecksum
           type := fragment_to_int (read_fragment.take 2) }

/-- The three session notifications of `BaseReader`: `card_inserted`,
`card_removed` (whose argument is `self.card`, possibly `None`), and
`invalid_card`. -/
inductive Event where
  | cardInserted (card : CardData)
  | cardRemoved (card : Option CardData)
  | invalidCard (card : CardData)
deriving DecidableEq, Repr

/-- The session-relevant mutable fields of `BaseReader`: `self.card` and
`self.last_read_at`. -/
structure SessionState where
  card : Option CardData
  last_read_at : Option Nat
deriving DecidableEq, Repr

/-- The state right after `BaseReader.__init__` (`card = None`,
`last_read_at = None`). -/
def initState : SessionState := ⟨none, none⟩

/-- The tail of `BaseReader._process_fragment` once parsing has produced a
record: on an invalid record set `last_read_at` and emit `invalid_card`;
on a valid record set `last_read_at`, and if the record differs from
`self.card`, store it and emit `card_inserted`. -/
def process_record (st : SessionState) (rec : CardData) (now : Nat) :
    SessionState × List Event :=
  if rec.is_valid = false then
    ({ st with last_read_at := some now }, [Event.invalidCard rec])
  else
    if st.card = some rec then
      ({ st with last_read_at := some now }, [])
    else
      ({ card := some rec, last_read_at := some now }, [Event.cardInserted rec])

/-- `BaseReader._process_fragment`: parse, drop unparseable fragments,
otherwise dispatch on the record. -/
def process_fragment (st : SessionState) (frag : List Nat) (now : Nat) :
    SessionState × List Event :=
  match parse_fragment frag with
  | none => (st, [])
  | some rec => process_record st rec now

/-- `BaseReader._process_heartbeat`: if `last_read_at` is truthy and the
heartbeat interval is truthy and more than the interval has passed since
`last_read_at`, emit `card_removed(self.card)` and clear both fields.
Python treats `None` and `0` as false, hence the explicit `≠ 0` guards. -/
def process_heartbeat (heartbeat_interval : Option Nat) (st : SessionState)
    (now : Nat) : SessionState × List Event :=
  match st.last_read_at, heartbeat_interval with
  | some t, some T =>
    if t ≠ 0 ∧ T ≠ 0 ∧ T < now - t then
      ({ card := none, last_read_at := none }, [Event.cardRemoved st.card])
    else (st, [])
  | _, _ => (st, [])

/-! ### Concrete fragments used by the spec's scenarios -/

/-- The nibbles of hex `"67003B51C6CB"`. -/
def frag67 : List Nat := [6, 7, 0, 0, 3, 11, 5, 1, 12, 6, 12, 11]

/-- The nibbles of hex `"68003B51C6CB"` (type byte altered). -/
def frag68 : List Nat := [6, 8, 0, 0, 3, 11, 5, 1, 12, 6, 12, 11]

/-- The record the spec expects for `"67003B51C6CB"`. -/
def card67 : CardData := ⟨3887558, 203, 103, true⟩

/-- The record the spec expects for `"68003B51C6CB"`. -/
def card68 : CardData := ⟨3887558, 203, 104, false⟩

/-! ### Spec-side decoder (for the refinement claim C3)

These definitions follow the *spec's words* (section 4.2), not the code:
value/type as big-endian positional accumulation written as multiply-add,
checksum as the explicit XOR of the five nibble-pair bytes, received
checksum as `(nibble[10] << 4) | nibble[11]`. -/

/-- Modelled from the spec: "treat nibbles [0,10) as five byte-pairs; for
each pair (hi, lo) at positions (2i, 2i+1) form byte = (hi << 4) | lo, and
XOR all five bytes together". -/
def checksumSpec (f : List Nat) : Nat :=
  ((f.getD 0 0 <<< 4) ||| f.getD 1 0) ^^^
  ((f.getD 2 0 <<< 4) ||| f.getD 3 0) ^^^
  ((f.getD 4 0 <<< 4) ||| f.getD 5 0) ^^^
  ((f.getD 6 0 <<< 4) ||| f.getD 7 0) ^^^
  ((f.getD 8 0 <<< 4) ||| f.getD 9 0)

/-- Modelled from the spec: "received checksum: nibbles [10,12) combined as
(nibble[10] << 4) | nibble[11]". -/
def recvChecksumSpec (f : List Nat) : Nat :=
  (f.getD 10 0 <<< 4) ||| f.getD 11 0

/-- Modelled from the spec: "value: big-endian accumulation of nibbles
[2,10), nibble[2] most significant", written positionally as multiply-add. -/
def valueSpec (f : List Nat) : Nat :=
  16 * (16 * (16 * (16 * (16 * (16 * (16 * f.getD 2 0 + f.getD 3 0)
    + f.getD 4 0) + f.getD 5 0) + f.getD 6 0) + f.getD 7 0)
    + f.getD 8 0) + f.getD 9 0

/-- Modelled from the spec: "type: big-endian accumulation of nibbles
[0,2) (one byte)". -/
def typeSpec (f : List Nat) : Nat :=
  16 * f.getD 0 0 + f.getD 1 0

/-! ### Event classifiers -/

/-- Is the event a `card_inserted` notification? -/
def isInsertedEvt : Event → Bool
  | .cardInserted _ => true
  | _ => false

/-- Is the event a `card_removed` notification? -/
def isRemovedEvt : Event → Bool
  | .cardRemoved _ => true
  | _ => false

/-! ### Frame assembler (the byte-handling branch of `BaseReader._read`) -/

/-- The hex value of a single byte, when `int(bytes([b]).decode('ascii'), 16)`
succeeds: ASCII digits and letters `a`-`f` / `A`-`F`; any other byte
(including every byte ≥ 0x80, where the ascii decode fails) raises
`ValueError`, modelled as `none`. -/
def hexVal (b : Nat) : Option Nat :=
  if 48 ≤ b ∧ b ≤ 57 then some (b - 48)
  else if 65 ≤ b ∧ b ≤ 70 then some (b - 55)
  else if 97 ≤ b ∧ b ≤ 102 then some (b - 87)
  else none

/-- One byte of `BaseReader._read`: on the start code 0x02 flush a non-empty
buffer as a candidate fragment; on the end code 0x03 likewise; otherwise
append the byte's hex value, or on `ValueError` discard the whole buffer.
Returns the new `current_fragment` buffer and the flushed fragment, if any. -/
def feed_byte (buf : List Nat) (b : Nat) : List Nat × Option (List Nat) :=
  if b = 2 then
    if buf.length > 0 then ([], some buf) else (buf, none)
  else if b = 3 then
    if buf.length > 0 then ([], some buf) else (buf, none)
  else
    match hexVal b with
    | some v => (buf ++ [v], none)
    | none => ([], none)

/-- Iterate `feed_byte` over a byte list, collecting the flushed fragments
in order. -/
def feed_bytes : List Nat → List Nat → List Nat × List (List Nat)
  | buf, [] => (buf, [])
  | buf, b :: rest =>
    let r := feed_byte buf b
    let rr := feed_bytes r.1 rest
    (rr.1, (match r.2 with | some f => [f] | none => []) ++ rr.2)

/-! ### Session traces

The spec's CardSession interface (§4.3) has two operations,
`on_fragment_decoded(record, now)` and `on_tick(now)`.  They correspond to
`BaseReader._process_fragment` (with `time.time()` passed explicitly) and
`BaseReader._process_heartbeat`. -/

/-- One CardSession step: either a decoded fragment arriving, or a
heartbeat tick, each at a given timestamp. -/
inductive Step where
  | frag (f : List Nat) (now : Nat)
  | tick (now : Nat)
deriving DecidableEq, Repr

/-- The timestamp of a step. -/
def stepTime : Step → Nat
  | .frag _ now => now
  | .tick now => now

/-- Run one step against the session state. -/
def runStep (hb : Option Nat) (st : SessionState) (s : Step) :
    SessionState × List Event :=
  match s with
  | .frag f now => process_fragment st f now
  | .tick now => process_heartbeat hb st now

/-- Run a trace of steps, collecting the emitted events in order. -/
def runTrace (hb : Option Nat) (st : SessionState) :
    List Step → SessionState × List Event
  | [] => (st, [])
  | s :: rest =>
    let r := runStep hb st s
    let rr := runTrace hb r.1 rest
    (rr.1, r.2 ++ rr.2)

/-- Is the step a fragment step whose fragment actually parses
(i.e. a card read, valid or invalid)? -/
def isRead : Step → Bool
  | .frag f _ => (parse_fragment f).isSome
  | .tick _ => false

/-- Is the step a fragment step that parses to a record with a matching
checksum (a valid card read)? -/
def isValidRead : Step → Bool
  | .frag f _ =>
    match parse_fragment f with
    | some rec => rec.is_valid
    | none => false
  | .tick _ => false

/-- Is the step a fragment step that parses to a record with a checksum
mismatch (an invalid card read)? -/
def isInvalidRead : Step → Bool
  | .frag f _ =>
    match parse_fragment f with
    | some rec => !rec.is_valid
    | none => false
  | .tick _ => false

/-- Is the step a heartbeat tick? -/
def isTick : Step → Bool
  | .frag _ _ => false
  | .tick _ => true

/-- Timestamps along the trace are nondecreasing, starting from `lo`
(taking `lo ≥ 1` also makes every timestamp positive, as `time.time()`
is in reality). -/
def timesOK (lo : Nat) : List Step → Bool
  | [] => true
  | s :: rest => decide (lo ≤ stepTime s) && timesOK (stepTime s) rest

/-- The timestamp of the last step of a trace (default `d` when empty). -/
def lastTime (d : Nat) : List Step → Nat
  | [] => d
  | s :: rest => lastTime (stepTime s) rest

/-! ### The convenience `Reader` (single-shot blocking read)

`Reader` overrides `card_inserted` to call `stop()` and `tick` to stop once
`time.time()` passes `successful_read_deadline`; `read()` clears
`self.card`, computes the deadline from the timeout (`if timeout:` — so a
timeout of `0` is falsy and sets no deadline, like `None`), runs `_read`
and returns `self.card`.  The loop is modelled over a finite schedule of
iterations, each yielding at most one byte at a timestamp. -/

/-- The loop-relevant mutable fields of a `Reader` during `read()`:
the frame buffer `current_fragment`, `card`, `last_read_at` and the
cooperative stop flag `quit_reader`. -/
structure RdState where
  buf : List Nat
  card : Option CardData
  last_read_at : Option Nat
  quit : Bool
deriving DecidableEq, Repr

/-- `Reader.tick`: `if self.successful_read_deadline and time.time() >
self.successful_read_deadline: self.stop()` — Python truthiness makes a
`None` or zero deadline inert. -/
def readerTick (deadline : Option Nat) (st : RdState) (now : Nat) : RdState :=
  match deadline with
  | none => st
  | some d => if d ≠ 0 ∧ d < now then { st with quit := true } else st

/-- Did `Reader.tick` at time `now` find a truthy, passed deadline? -/
def deadlineHit (deadline : Option Nat) (now : Nat) : Bool :=
  match deadline with
  | none => false
  | some d => decide (d ≠ 0 ∧ d < now)

/-- One iteration of `_read` for the convenience `Reader`: process the
polled byte (if any) through the frame assembler, feed a flushed fragment
to `_process_fragment` (where `card_inserted` sets the stop flag), run
`_process_heartbeat` (a no-op: the `Reader` is constructed with
`heartbeat_interval=None`), then `Reader.tick`, which stops once a truthy
deadline has passed. -/
def readerIter (deadline : Option Nat) (st : RdState) (byte : Option Nat)
    (now : Nat) : RdState × List Event :=
  let afterByte :=
    match byte with
    | none => (st, [])
    | some b =>
      let r := feed_byte st.buf b
      match r.2 with
      | none => ({ st with buf := r.1 }, [])
      | some f =>
        let pr := process_fragment ⟨st.card, st.last_read_at⟩ f now
        ({ buf := r.1, card := pr.1.card, last_read_at := pr.1.last_read_at,
           quit := st.quit || pr.2.any isInsertedEvt }, pr.2)
  let st₁ := afterByte.1
  let hbSt := (process_heartbeat none ⟨st₁.card, st₁.last_read_at⟩ now).1
  let st₂ := { st₁ with card := hbSt.card, last_read_at := hbSt.last_read_at }
  (readerTick deadline st₂ now, afterByte.2)

/-- Run the `_read` loop of the convenience `Reader` over a finite schedule
of iterations; the `while not self.quit_reader` condition is checked at the
top of each iteration. -/
def readerLoop (deadline : Option Nat) (st : RdState) :
    List (Option Nat × Nat) → RdState × List Event
  | [] => (st, [])
  | (b, now) :: rest =>
    if st.quit then (st, [])
    else
      let r := readerIter deadline st b now
      let rr := readerLoop deadline r.1 rest
      (rr.1, r.2 ++ rr.2)

/-- The deadline computed by `Reader.read`: `if timeout:` — `None` and `0`
are both falsy and leave `successful_read_deadline = None`. -/
def readDeadline (timeout : Option Nat) (start : Nat) : Option Nat :=
  match timeout with
  | none => none
  | some k => if k ≠ 0 then some (start + k) else none

/-- `Reader.read(timeout)`, modelled over a finite schedule: reset
`self.card` to `None` (the frame buffer and `last_read_at` persist from
earlier activity and are taken as parameters; `_read` clears the stop
flag), run the loop, and return the final state and events; `self.card`
of the final state is the return value. -/
def readerRead (timeout : Option Nat) (start : Nat) (buf₀ : List Nat)
    (lr₀ : Option Nat) (sched : List (Option Nat × Nat)) :
    RdState × List Event :=
  readerLoop (readDeadline timeout start) ⟨buf₀, none, lr₀, false⟩ sched

/-- The card of the first `card_inserted` event in a list, if any. -/
def firstInserted : List Event → Option CardData
  | [] => none
  | .cardInserted c :: _ => some c
  | _ :: rest => firstInserted rest

/-- The ASCII bytes of the string `"67003B51C6CB"`. -/
def hexBytes67 : List Nat := [54, 55, 48, 48, 51, 66, 53, 49, 67, 54, 67, 66]

/-! ## Theorems -/

/-- For a nibble `n < 16`, the shift/or accumulation step coincides with
the positional multiply-add step. -/
theorem shiftor_eq_muladd (v : Nat) {n : Nat} (h : n < 16) :
    (v <<< 4) ||| n = 16 * v + n := by
  have h4 : (16 : Nat) = 2 ^ 4 := by norm_num
  rw [Nat.shiftLeft_eq, h4]
  rw [Nat.mul_comm v (2 ^ 4)]
  rw [← Nat.mul_add_lt_is_or (by omega) v]

/-- Boolean equality of naturals agrees with the decidable propositional
equality taken in the opposite order. -/
theorem beq_decide_symm (a b : Nat) : (a == b) = decide (b = a) := by
  rw [Bool.eq_iff_iff]
  simp only [beq_iff_eq, decide_eq_true_eq]
  exact eq_comm

/-- C3: for every fragment of exactly 12 nibbles (each in 0..15),
`_parse_fragment` returns a record whose value is the big-endian
accumulation of nibbles [2,10), whose type comes from nibbles [0,2),
whose received checksum is `(nibble[10] << 4) | nibble[11]`, and whose
`is_valid` is true exactly when the XOR of the five bytes formed from the
nibble pairs at positions (2i, 2i+1), i in 0..5, equals the received
checksum; in particular hex `"67003B51C6CB"` decodes to
value=3887558, type=103, checksum=203, is_valid=true. -/
theorem decode_matches_spec (f : List Nat) (hlen : f.length = 12)
    (hnib : ∀ n ∈ f, n < 16) :
    parse_fragment f =
      some { value := valueSpec f, checksum := recvChecksumSpec f,
             type := typeSpec f,
             is_valid := decide (checksumSpec f = recvChecksumSpec f) } ∧
    parse_fragment frag67 = some card67 ∧
    card67 = ⟨3887558, 203, 103, true⟩ := by
  refine ⟨?_, by decide, by decide⟩
  rcases f with _ | ⟨n0, _ | ⟨n1, _ | ⟨n2, _ | ⟨n3, _ | ⟨n4, _ | ⟨n5, _ | ⟨n6,
    _ | ⟨n7, _ | ⟨n8, _ | ⟨n9, _ | ⟨n10, _ | ⟨n11, rest⟩⟩⟩⟩⟩⟩⟩⟩⟩⟩⟩⟩ <;>
    simp only [List.length] at hlen <;> try omega
  rcases rest with _ | ⟨n12, rest⟩
  case cons.cons.cons.cons.cons.cons.cons.cons.cons.cons.cons.cons.cons =>
    simp at hlen
  have h1 : n1 < 16 := hnib n1 (by simp)
  have h3 : n3 < 16 := hnib n3 (by simp)
  have h4 : n4 < 16 := hnib n4 (by simp)
  have h5 : n5 < 16 := hnib n5 (by simp)
  have h6 : n6 < 16 := hnib n6 (by simp)
  have h7 : n7 < 16 := hnib n7 (by simp)
  have h8 : n8 < 16 := hnib n8 (by simp)
  have h9 : n9 < 16 := hnib n9 (by simp)
  simp only [parse_fragment, fragment_to_int, valueSpec, typeSpec,
    recvChecksumSpec, checksumSpec, List.length, List.drop, List.take,
    List.foldl, List.range_succ, List.range_zero, List.getD, List.get?,
    Option.getD, Nat.zero_shiftLeft, Nat.zero_or]
  rw [if_neg (by omega)]
  rw [Nat.zero_xor]
  simp only [Option.some.injEq, CardData.mk.injEq]
  refine ⟨?_, trivial, ?_, ?_⟩
  · rw [shiftor_eq_muladd _ h3, shiftor_eq_muladd _ h4, shiftor_eq_muladd _ h5,
        shiftor_eq_muladd _ h6, shiftor_eq_muladd _ h7, shiftor_eq_muladd _ h8,
        shiftor_eq_muladd _ h9]
  · exact shiftor_eq_muladd _ h1
  · exact beq_decide_symm _ _

/-- Witness for C3 at the concrete fragment of hex `"67003B51C6CB"`. -/
theorem decode_matches_spec_witness :
    parse_fragment frag67 =
      some { value := valueSpec frag67, checksum := recvChecksumSpec frag67,
             type := typeSpec frag67,
             is_valid := decide (checksumSpec frag67 = recvChecksumSpec frag67) } :=
  (decode_matches_spec frag67 (by decide) (by decide)).1

/-- C2 counterexample: processing an invalid record does NOT leave
`last_read_at` unchanged — from a state with `last_read_at = some 1`,
processing the invalid record for hex `"68003B51C6CB"` at time 5 moves
`last_read_at` to `some 5` (the code sets `self.last_read_at = time.time()`
in the invalid branch of `_process_fragment`). -/
theorem invalid_read_refreshes_heartbeat_cex :
    card68.is_valid = false ∧
    (process_record ⟨some card67, some 1⟩ card68 5).1.last_read_at = some 5 ∧
    some (5 : Nat) ≠ some (1 : Nat) := by decide

/-- C2 amended: for every session state and every record with
`is_valid = false`, processing the record leaves `current_card` unchanged
and emits only `invalid_card`, but it DOES refresh the heartbeat
timestamp, setting `last_read_at` to the current time. -/
theorem invalid_read_frame_effect (st : SessionState) (rec : CardData)
    (now : Nat) (h : rec.is_valid = false) :
    (process_record st rec now).1.card = st.card ∧
    (process_record st rec now).1.last_read_at = some now ∧
    (process_record st rec now).2 = [Event.invalidCard rec] := by
  simp [process_record, h]

/-- Witness for the amended C2 at a concrete state and record. -/
theorem invalid_read_frame_effect_witness :
    (process_record ⟨some card67, some 1⟩ card68 5).1.card = some card67 ∧
    (process_record ⟨some card67, some 1⟩ card68 5).1.last_read_at = some 5 ∧
    (process_record ⟨some card67, some 1⟩ card68 5).2 =
      [Event.invalidCard card68] :=
  invalid_read_frame_effect ⟨some card67, some 1⟩ card68 5 (by decide)

/-- C5 counterexample: from a session state in which `card67` is already
the current card, processing the same valid record twice produces ZERO
`card_inserted` events, not exactly one. -/
theorem dedup_twice_cex :
    card67.is_valid = true ∧
    ((process_record ⟨some card67, some 1⟩ card67 2).2 ++
      (process_record (process_record ⟨some card67, some 1⟩ card67 2).1
        card67 3).2).countP isInsertedEvt = 0 := by decide

/-- C5 amended: processing a valid record `rec` twice in succession emits
exactly one `card_inserted` when `rec` is not already the current card and
zero when it is; the processing that makes `rec` current emits
`card_inserted rec`, and re-processing `rec` while it is (structurally)
equal to the current card emits no event. -/
theorem dedup_exactly_one (st : SessionState) (rec : CardData) (t₁ t₂ : Nat)
    (hv : rec.is_valid = true) :
    ((process_record st rec t₁).2 ++
      (process_record (process_record st rec t₁).1 rec t₂).2).countP
        isInsertedEvt = (if st.card = some rec then 0 else 1) ∧
    (st.card ≠ some rec →
      (process_record st rec t₁).2 = [Event.cardInserted rec]) ∧
    (process_record (process_record st rec t₁).1 rec t₂).2 = [] ∧
    (process_record st rec t₁).1.card = some rec := by
  by_cases h : st.card = some rec <;>
    simp [process_record, hv, h, isInsertedEvt]

/-- Witness for the amended C5 starting from the empty session state. -/
theorem dedup_exactly_one_witness :
    ((process_record initState card67 2).2 ++
      (process_record (process_record initState card67 2).1 card67 3).2).countP
        isInsertedEvt = (if initState.card = some card67 then 0 else 1) ∧
    (initState.card ≠ some card67 →
      (process_record initState card67 2).2 = [Event.cardInserted card67]) ∧
    (process_record (process_record initState card67 2).1 card67 3).2 = [] ∧
    (process_record initState card67 2).1.card = some card67 :=
  dedup_exactly_one initState card67 2 3 (by decide)

/-- C6: processing a record with `is_valid = false` emits `invalid_card`
unconditionally — from every state, and again on every repetition, with no
deduplication — and never emits `card_inserted`; in particular hex
`"68003B51C6CB"` decodes to value=3887558, type=104, checksum=203,
is_valid=false and emits `invalid_card`, not `card_inserted`. -/
theorem invalid_event_unconditional (st : SessionState) (rec : CardData)
    (t₁ t₂ : Nat) (h : rec.is_valid = false) :
    (process_record st rec t₁).2 = [Event.invalidCard rec] ∧
    (process_record (process_record st rec t₁).1 rec t₂).2 =
      [Event.invalidCard rec] ∧
    (process_record st rec t₁).2.countP isInsertedEvt = 0 ∧
    parse_fragment frag68 = some card68 ∧
    card68 = ⟨3887558, 203, 104, false⟩ ∧
    (process_record st card68 t₁).2 = [Event.invalidCard card68] := by
  refine ⟨?_, ?_, ?_, by decide, by decide, ?_⟩ <;>
    simp [process_record, h, isInsertedEvt, card68]

/-- A byte with a hex value is an ASCII digit or letter, hence neither of
the marker bytes 0x02 / 0x03. -/
theorem hexVal_isSome_ne_markers {d : Nat} (h : (hexVal d).isSome) :
    d ≠ 2 ∧ d ≠ 3 := by
  simp only [hexVal] at h
  split at h
  · omega
  · split at h
    · omega
    · split at h
      · omega
      · simp at h

/-- Feeding a run of hex-digit bytes appends their nibble values to the
buffer and emits nothing. -/
theorem feed_bytes_hex (ds : List Nat) :
    ∀ buf tail, (∀ d ∈ ds, (hexVal d).isSome) →
    feed_bytes buf (ds ++ tail) =
      feed_bytes (buf ++ ds.map (fun d => (hexVal d).getD 0)) tail := by
  induction ds with
  | nil => intro buf tail _; simp
  | cons d ds ih =>
    intro buf tail hds
    have hd : (hexVal d).isSome := hds d (by simp)
    obtain ⟨v, hv⟩ := Option.isSome_iff_exists.mp hd
    have hne := hexVal_isSome_ne_markers hd
    have hfeed : feed_byte buf d = (buf ++ [v], none) := by
      simp only [feed_byte]
      rw [if_neg hne.1, if_neg hne.2, hv]
    simp only [List.cons_append, feed_bytes, hfeed, List.nil_append,
      List.append_eq]
    rw [ih (buf ++ [v]) tail (fun x hx => hds x (by simp [hx]))]
    simp [hv, List.append_assoc]

/-- Witness for C6 at a concrete state and the `"68003B51C6CB"` record. -/
theorem invalid_event_unconditional_witness :
    (process_record initState card68 4).2 = [Event.invalidCard card68] ∧
    (process_record (process_record initState card68 4).1 card68 7).2 =
      [Event.invalidCard card68] ∧
    (process_record initState card68 4).2.countP isInsertedEvt = 0 ∧
    parse_fragment frag68 = some card68 ∧
    card68 = ⟨3887558, 203, 104, false⟩ ∧
    (process_record initState card68 4).2 = [Event.invalidCard card68] :=
  invalid_event_unconditional initState card68 4 7 (by decide)

/-- C7: a byte that is neither a marker (0x02/0x03) nor an ASCII hex digit
— which covers every byte ≥ 0x80, whose ascii decode fails — makes
`_read` discard the whole in-progress buffer with no fragment emitted
(hence no session event, since session processing is only ever invoked on
emitted fragments), and a subsequent well-formed marker-delimited packet
is assembled and decoded normally; feeding a byte never raises (the
`ValueError` of the hex conversion is caught, everything else is total).
In particular, after any trash byte, `START ++ "67003B51C6CB" ++ END`
still yields exactly one fragment, which decodes to `card67`. -/
theorem trash_discards_and_resyncs (buf : List Nat) (b : Nat) (ds : List Nat)
    (hb2 : b ≠ 2) (hb3 : b ≠ 3) (hbx : hexVal b = none) (hne : ds ≠ [])
    (hds : ∀ d ∈ ds, (hexVal d).isSome) :
    feed_byte buf b = ([], none) ∧
    (∀ c, 128 ≤ c → hexVal c = none) ∧
    feed_bytes buf (b :: 2 :: (ds ++ [3])) =
      ([], [ds.map (fun d => (hexVal d).getD 0)]) ∧
    (feed_bytes buf (b :: 2 :: (hexBytes67 ++ [3]))).2.map parse_fragment =
      [some card67] := by
  have htrash : feed_byte buf b = ([], none) := by
    simp only [feed_byte]
    rw [if_neg hb2, if_neg hb3, hbx]
  have hstart : feed_byte ([] : List Nat) 2 = ([], none) := by decide
  refine ⟨htrash, ?_, ?_, ?_⟩
  · intro c hc
    simp only [hexVal]
    rw [if_neg (by omega), if_neg (by omega), if_neg (by omega)]
  · simp only [feed_bytes, htrash, hstart, List.nil_append]
    rw [feed_bytes_hex ds [] [3] hds]
    have hlen : (ds.map (fun d => (hexVal d).getD 0)).length > 0 := by
      rw [List.length_map]
      exact List.length_pos.mpr hne
    have hend : feed_byte (ds.map (fun d => (hexVal d).getD 0)) 3 =
        ([], some (ds.map (fun d => (hexVal d).getD 0))) := by
      simp only [feed_byte]
      rw [if_neg (by omega)]
      simp [hlen, hne]
    simp [feed_bytes, hend]
  · simp only [feed_bytes, htrash, hstart, List.nil_append]
    decide

/-- Running an appended trace runs the pieces in sequence and concatenates
their events. -/
theorem runTrace_append (hb : Option Nat) (tr₁ tr₂ : List Step) :
    ∀ st : SessionState,
    runTrace hb st (tr₁ ++ tr₂) =
      ((runTrace hb (runTrace hb st tr₁).1 tr₂).1,
       (runTrace hb st tr₁).2 ++ (runTrace hb (runTrace hb st tr₁).1 tr₂).2) := by
  induction tr₁ with
  | nil => intro st; simp [runTrace]
  | cons s tr ih =>
    intro st
    simp only [List.cons_append, runTrace, List.append_eq, ih, List.append_assoc]

/-- The last timestamp of a nonempty trace does not depend on the default. -/
theorem lastTime_cons (d : Nat) (s : Step) (tr : List Step) :
    lastTime d (s :: tr) = lastTime (stepTime s) tr := rfl

/-- `timesOK` splits across an append, threading the last timestamp. -/
theorem timesOK_append (xs : List Step) :
    ∀ lo ys, timesOK lo (xs ++ ys) = (timesOK lo xs && timesOK (lastTime lo xs) ys) := by
  induction xs with
  | nil => intro lo ys; simp [timesOK, lastTime]
  | cons s xs ih =>
    intro lo ys
    simp only [List.cons_append, timesOK, List.append_eq, lastTime_cons, ih, Bool.and_assoc]

/-- `lastTime` over an append threads through. -/
theorem lastTime_append (xs : List Step) :
    ∀ d ys, lastTime d (xs ++ ys) = lastTime (lastTime d xs) ys := by
  induction xs with
  | nil => intro d ys; simp [lastTime]
  | cons s xs ih => intro d ys; simp only [List.cons_append, lastTime_cons, ih]

/-- In a time-monotone trace every timestamp lies between the lower bound
and the final timestamp, and the bound itself is below the final one. -/
theorem timesOK_bounds (tr : List Step) :
    ∀ lo, timesOK lo tr = true →
      lo ≤ lastTime lo tr ∧ ∀ s ∈ tr, lo ≤ stepTime s ∧ stepTime s ≤ lastTime lo tr := by
  induction tr with
  | nil => intro lo _; simp [lastTime]
  | cons s rest ih =>
    intro lo h
    simp only [timesOK, Bool.and_eq_true, decide_eq_true_eq] at h
    obtain ⟨h1, h2⟩ := h
    obtain ⟨hl, hall⟩ := ih (stepTime s) h2
    rw [lastTime_cons]
    refine ⟨le_trans h1 hl, ?_⟩
    intro x hx
    rcases List.mem_cons.mp hx with hx | hx
    · subst hx; exact ⟨h1, hl⟩
    · obtain ⟨ha, hb⟩ := hall x hx
      exact ⟨le_trans h1 ha, hb⟩

/-- Witness for C7: trash byte 0xFF with a dirty buffer, followed by the
packet for `"67003B51C6CB"`. -/
theorem trash_discards_and_resyncs_witness :
    feed_byte [9, 9] 255 = ([], none) ∧
    (∀ c, 128 ≤ c → hexVal c = none) ∧
    feed_bytes [9, 9] (255 :: 2 :: (hexBytes67 ++ [3])) =
      ([], [hexBytes67.map (fun d => (hexVal d).getD 0)]) ∧
    (feed_bytes [9, 9] (255 :: 2 :: (hexBytes67 ++ [3]))).2.map parse_fragment =
      [some card67] :=
  trash_discards_and_resyncs [9, 9] 255 hexBytes67 (by decide) (by decide)
    (by decide) (by decide) (by decide)

/-- Processing a valid record from any state leaves the session holding
exactly that record, read at that time. -/
theorem process_valid_state (st : SessionState) (rec : CardData) (n : Nat)
    (hv : rec.is_valid = true) :
    (process_record st rec n).1 = ⟨some rec, some n⟩ := by
  by_cases h : st.card = some rec <;> simp [process_record, hv, h]

/-- After a heartbeat check the state is either untouched or fully
cleared. -/
theorem process_heartbeat_state (hb : Option Nat) (st : SessionState) (n : Nat) :
    (process_heartbeat hb st n).1 = st ∨ (process_heartbeat hb st n).1 = ⟨none, none⟩ := by
  rcases st with ⟨c, _ | t⟩ <;> rcases hb with _ | T
  · exact Or.inl rfl
  · exact Or.inl rfl
  · exact Or.inl rfl
  · simp only [process_heartbeat]
    by_cases hcond : t ≠ 0 ∧ T ≠ 0 ∧ T < n - t
    · rw [if_pos hcond]; exact Or.inr rfl
    · rw [if_neg hcond]; exact Or.inl rfl

/-- A truthy, expired heartbeat fires the removal and clears the state. -/
theorem heartbeat_fires (T : Nat) (c : Option CardData) (t n : Nat)
    (ht : t ≠ 0) (hT : T ≠ 0) (hlt : T < n - t) :
    process_heartbeat (some T) ⟨c, some t⟩ n =
      (⟨none, none⟩, [Event.cardRemoved c]) := by
  simp only [process_heartbeat]
  rw [if_pos ⟨ht, hT, hlt⟩]

/-- A heartbeat whose interval has not yet expired does nothing. -/
theorem heartbeat_skips (T : Nat) (c : Option CardData) (t n : Nat)
    (hle : ¬ T < n - t) :
    process_heartbeat (some T) ⟨c, some t⟩ n = (⟨c, some t⟩, []) := by
  simp only [process_heartbeat]
  rw [if_neg (fun h => hle h.2.2)]

/-- A heartbeat with heartbeat detection disabled does nothing. -/
theorem heartbeat_disabled (st : SessionState) (n : Nat) :
    process_heartbeat none st n = (st, []) := by
  rcases st with ⟨c, _ | t⟩ <;> rfl

/-- A heartbeat with no recorded read does nothing. -/
theorem heartbeat_no_last (hb : Option Nat) (c : Option CardData) (n : Nat) :
    process_heartbeat hb ⟨c, none⟩ n = (⟨c, none⟩, []) := by
  rcases hb with _ | T <;> rfl

/-- Where the fields of the state after a run come from: a held card means
a valid read happened (or a card was already held), a set `last_read_at`
is the time of some parsed read (or was already set), and a held card
always comes with a set `last_read_at`. -/
theorem runTrace_origin (hb : Option Nat) (tr : List Step) :
    ∀ st : SessionState, (st.card.isSome → st.last_read_at.isSome) →
    (((runTrace hb st tr).1.card.isSome → (runTrace hb st tr).1.last_read_at.isSome) ∧
     ((runTrace hb st tr).1.card.isSome →
       st.card.isSome = true ∨ tr.any isValidRead = true) ∧
     (∀ u, (runTrace hb st tr).1.last_read_at = some u →
       st.last_read_at = some u ∨
         tr.any (fun s => isRead s && stepTime s == u) = true)) := by
  induction tr with
  | nil => intro st hinv; simpa [runTrace] using hinv
  | cons s rest ih =>
    intro st hinv
    simp only [runTrace, List.any_cons, Bool.or_eq_true]
    rcases s with ⟨f, n⟩ | n
    · simp only [runStep]
      rcases hp : parse_fragment f with _ | rec
      · simp only [process_fragment, hp]
        obtain ⟨ha, hb', hc⟩ := ih st hinv
        refine ⟨ha, fun h => ?_, fun u hu => ?_⟩
        · rcases hb' h with h' | h'
          · exact Or.inl h'
          · exact Or.inr (Or.inr h')
        · rcases hc u hu with h' | h'
          · exact Or.inl h'
          · exact Or.inr (Or.inr h')
      · simp only [process_fragment, hp]
        by_cases hv : rec.is_valid = false
        · have hstep : (process_record st rec n).1 = ⟨st.card, some n⟩ := by
            simp [process_record, hv]
          rw [hstep]
          obtain ⟨ha, hb', hc⟩ := ih ⟨st.card, some n⟩ (by simp)
          refine ⟨ha, fun h => ?_, fun u hu => ?_⟩
          · rcases hb' h with h' | h'
            · exact Or.inl h'
            · exact Or.inr (Or.inr h')
          · rcases hc u hu with h' | h'
            · refine Or.inr (Or.inl ?_)
              simp only [Option.some.injEq] at h'
              simp [isRead, stepTime, hp, h']
            · exact Or.inr (Or.inr h')
        · rw [Bool.not_eq_false] at hv
          have hstep : (process_record st rec n).1 = ⟨some rec, some n⟩ :=
            process_valid_state st rec n hv
          rw [hstep]
          obtain ⟨ha, hb', hc⟩ := ih ⟨some rec, some n⟩ (by simp)
          refine ⟨ha, fun h => ?_, fun u hu => ?_⟩
          · rcases hb' h with h' | h'
            · refine Or.inr (Or.inl ?_)
              simp [isValidRead, stepTime, hp, hv]
            · exact Or.inr (Or.inr h')
          · rcases hc u hu with h' | h'
            · refine Or.inr (Or.inl ?_)
              simp only [Option.some.injEq] at h'
              simp [isRead, stepTime, hp, h']
            · exact Or.inr (Or.inr h')
    · simp only [runStep]
      rcases process_heartbeat_state hb st n with hc' | hc' <;> rw [hc']
      · obtain ⟨ha, hb', hc⟩ := ih st hinv
        refine ⟨ha, fun h => ?_, fun u hu => ?_⟩
        · rcases hb' h with h' | h'
          · exact Or.inl h'
          · exact Or.inr (Or.inr h')
        · rcases hc u hu with h' | h'
          · exact Or.inl h'
          · exact Or.inr (Or.inr h')
      · obtain ⟨ha, hb', hc⟩ := ih ⟨none, none⟩ (by simp)
        refine ⟨ha, fun h => ?_, fun u hu => ?_⟩
        · rcases hb' h with h' | h'
          · simp at h'
          · exact Or.inr (Or.inr h')
        · rcases hc u hu with h' | h'
          · simp at h'
          · exact Or.inr (Or.inr h')

/-- Once a card is held with a sufficiently recent `last_read_at`, a run
whose timestamps all stay within `t + T` (and at or after `t`) keeps some
card held: reads refresh the timestamp and the heartbeat never expires. -/
theorem card_persists (T : Nat) (tr : List Step) :
    ∀ (st : SessionState) (c : CardData) (t u : Nat),
    st.card = some c → st.last_read_at = some u → t ≤ u → 0 < u →
    (∀ s ∈ tr, t ≤ stepTime s ∧ stepTime s ≤ t + T ∧ 0 < stepTime s) →
    (runTrace (some T) st tr).1.card.isSome = true := by
  induction tr with
  | nil =>
    intro st c t u hcard _ _ _ _
    simp [runTrace, hcard]
  | cons s rest ih =>
    intro st c t u hcard hlast htu hu hall
    obtain ⟨hts, hst, hpos⟩ := hall s (by simp)
    have hrest : ∀ x ∈ rest, t ≤ stepTime x ∧ stepTime x ≤ t + T ∧ 0 < stepTime x :=
      fun x hx => hall x (by simp [hx])
    simp only [runTrace]
    rcases s with ⟨f, n⟩ | n
    · simp only [runStep]
      rcases hp : parse_fragment f with _ | rec
      · simp only [process_fragment, hp]
        exact ih st c t u hcard hlast htu hu hrest
      · simp only [process_fragment, hp]
        by_cases hv : rec.is_valid = false
        · have hstep : (process_record st rec n).1 = ⟨st.card, some n⟩ := by
            simp [process_record, hv]
          rw [hstep]
          exact ih ⟨st.card, some n⟩ c t n hcard rfl
            (by simpa [stepTime] using hts) (by simpa [stepTime] using hpos) hrest
        · rw [Bool.not_eq_false] at hv
          rw [process_valid_state st rec n hv]
          exact ih ⟨some rec, some n⟩ rec t n rfl rfl
            (by simpa [stepTime] using hts) (by simpa [stepTime] using hpos) hrest
    · simp only [runStep]
      rcases st with ⟨c', lr⟩
      simp only at hcard hlast
      subst hlast
      have hskip : process_heartbeat (some T) ⟨c', some u⟩ n = (⟨c', some u⟩, []) := by
        refine heartbeat_skips T c' u n ?_
        have hn : stepTime (Step.tick n) ≤ t + T := hst
        simp only [stepTime] at hn
        omega
      rw [hskip]
      exact ih ⟨c', some u⟩ c t u hcard rfl htu hu hrest

/-- C1 counterexample: with heartbeat interval 10, the trace "valid read of
`frag67` at time 1, invalid read of `frag68` at time 11, tick at time 12"
is monotone with positive timestamps and ends in a tick, the final
`current_card` is non-empty, yet NO valid card read occurred within 10 of
the current time 12 (the only valid read was at time 1): the invalid read
refreshed the heartbeat and kept the card present.  The claimed
if-and-only-if fails in the only-if direction. -/
theorem presence_iff_valid_read_cex :
    timesOK 1 [Step.frag frag67 1, Step.frag frag68 11, Step.tick 12] = true ∧
    (runTrace (some 10) initState
      [Step.frag frag67 1, Step.frag frag68 11, Step.tick 12]).1.card.isSome = true ∧
    ([Step.frag frag67 1, Step.frag frag68 11, Step.tick 12].any
      (fun s => isValidRead s && decide (12 - stepTime s ≤ 10))) = false := by
  decide

/-- C1 amended: with heartbeat enabled at interval `T > 0`, for every
time-monotone, positively-timed trace from the empty initial state whose
final step is a heartbeat check at the current time `N`: (only-if, as the
code has it) a non-empty `current_card` implies some valid card read
occurred AND some card read — valid or invalid, since both refresh the
heartbeat — occurred within `T` of `N`; (if) a valid card read within `T`
of `N` guarantees `current_card` is non-empty. -/
theorem presence_time_bounded (T N : Nat) (tr' : List Step) (hT : 0 < T)
    (htimes : timesOK 1 (tr' ++ [Step.tick N]) = true) :
    ((runTrace (some T) initState (tr' ++ [Step.tick N])).1.card.isSome = true →
      (∃ s ∈ tr' ++ [Step.tick N], isValidRead s = true) ∧
      (∃ s ∈ tr' ++ [Step.tick N], isRead s = true ∧ N - stepTime s ≤ T)) ∧
    ((∃ s ∈ tr' ++ [Step.tick N], isValidRead s = true ∧ N - stepTime s ≤ T) →
      (runTrace (some T) initState (tr' ++ [Step.tick N])).1.card.isSome = true) := by
  have hN : lastTime 1 (tr' ++ [Step.tick N]) = N := by
    rw [lastTime_append]; rfl
  have hbounds := timesOK_bounds (tr' ++ [Step.tick N]) 1 htimes
  rw [hN] at hbounds
  obtain ⟨hN1, hall⟩ := hbounds
  constructor
  · -- only-if direction: a held card needs a past valid read and a recent read
    intro hcard
    rw [runTrace_append] at hcard
    simp only at hcard
    obtain ⟨hinv, horigin, hlastorigin⟩ :=
      runTrace_origin (some T) tr' initState (by simp [initState])
    rcases hst₁ : (runTrace (some T) initState tr').1 with ⟨c₁, lr₁⟩
    rw [hst₁] at hcard hinv horigin hlastorigin
    simp only at hinv horigin hlastorigin
    simp only [runTrace, runStep] at hcard
    rcases lr₁ with _ | u
    · -- no last_read_at: the heartbeat is a no-op, but a held card forces
      -- a set last_read_at, contradiction
      simp only [process_heartbeat] at hcard
      have := hinv hcard
      simp at this
    · rcases hlastorigin u rfl with h' | hread
      · simp [initState] at h'
      · have hu1 : 1 ≤ u := by
          rw [List.any_eq_true] at hread
          obtain ⟨s, hs, hprop⟩ := hread
          simp only [Bool.and_eq_true, beq_iff_eq] at hprop
          have := (hall s (by simp [hs])).1
          omega
        by_cases hlt : T < N - u
        · rw [heartbeat_fires T c₁ u N (by omega) (by omega) hlt] at hcard
          simp at hcard
        · rw [heartbeat_skips T c₁ u N hlt] at hcard
          simp only at hcard
          refine ⟨?_, ?_⟩
          · rcases horigin hcard with h' | h'
            · simp [initState] at h'
            · rw [List.any_eq_true] at h'
              obtain ⟨s, hs, hprop⟩ := h'
              exact ⟨s, by simp [hs], hprop⟩
          · rw [List.any_eq_true] at hread
            obtain ⟨s, hs, hprop⟩ := hread
            simp only [Bool.and_eq_true, beq_iff_eq] at hprop
            refine ⟨s, by simp [hs], hprop.1, ?_⟩
            rw [hprop.2]
            omega
  · -- if direction: a recent valid read keeps the card held through N
    rintro ⟨s, hs, hvalid, hrecent⟩
    rcases List.mem_append.mp hs with hs' | hs'
    case inr =>
      simp only [List.mem_singleton] at hs'
      subst hs'
      simp [isValidRead] at hvalid
    obtain ⟨l₁, l₂, rfl⟩ := List.append_of_mem hs'
    rcases s with ⟨f, tv⟩ | tv
    · -- a fragment step: the valid read itself
      simp only [isValidRead] at hvalid
      rcases hp : parse_fragment f with _ | rec
      · rw [hp] at hvalid; simp at hvalid
      rw [hp] at hvalid
      have hvalid' : rec.is_valid = true := hvalid
      have hmemfull : Step.frag f tv ∈ l₁ ++ Step.frag f tv :: l₂ ++ [Step.tick N] := by
        simp
      have htv1 : 1 ≤ tv := by
        simpa [stepTime] using (hall _ hmemfull).1
      have htvN : tv ≤ N := by
        simpa [stepTime] using (hall _ hmemfull).2
      -- monotone bound on the suffix after the valid read
      have harr : (l₁ ++ Step.frag f tv :: l₂) ++ [Step.tick N] =
          (l₁ ++ [Step.frag f tv]) ++ (l₂ ++ [Step.tick N]) := by simp
      have hOK : timesOK tv (l₂ ++ [Step.tick N]) = true := by
        have h := timesOK_append (l₁ ++ [Step.frag f tv]) 1 (l₂ ++ [Step.tick N])
        rw [← harr, htimes] at h
        have h2 := (Bool.and_eq_true _ _).mp h.symm
        have h3 := h2.2
        rw [lastTime_append] at h3
        exact h3
      have hsufb := timesOK_bounds (l₂ ++ [Step.tick N]) tv hOK
      have hlastN : lastTime tv (l₂ ++ [Step.tick N]) = N := by
        rw [lastTime_append]; rfl
      rw [hlastN] at hsufb
      have hNb : N ≤ tv + T := by
        simp only [stepTime] at hrecent
        omega
      have harr2 : (l₁ ++ Step.frag f tv :: l₂) ++ [Step.tick N] =
          l₁ ++ (Step.frag f tv :: (l₂ ++ [Step.tick N])) := by simp
      rw [harr2, runTrace_append]
      simp only [runTrace, runStep, process_fragment, hp]
      rw [process_valid_state _ rec tv hvalid']
      refine card_persists T (l₂ ++ [Step.tick N])
        ⟨some rec, some tv⟩ rec tv tv rfl rfl le_rfl (by omega) ?_
      intro x hx
      obtain ⟨hx1, hx2⟩ := hsufb.2 x hx
      exact ⟨hx1, by omega, by omega⟩

    · simp [isValidRead] at hvalid
/-- Witness for the amended C1: one valid read at time 1 and a heartbeat
check at time 2, interval 10. -/
theorem presence_time_bounded_witness :
    ((runTrace (some 10) initState
        ([Step.frag frag67 1] ++ [Step.tick 2])).1.card.isSome = true →
      (∃ s ∈ [Step.frag frag67 1] ++ [Step.tick 2], isValidRead s = true) ∧
      (∃ s ∈ [Step.frag frag67 1] ++ [Step.tick 2],
        isRead s = true ∧ 2 - stepTime s ≤ 10)) ∧
    ((∃ s ∈ [Step.frag frag67 1] ++ [Step.tick 2],
        isValidRead s = true ∧ 2 - stepTime s ≤ 10) →
      (runTrace (some 10) initState
        ([Step.frag frag67 1] ++ [Step.tick 2])).1.card.isSome = true) :=
  presence_time_bounded 10 2 [Step.frag frag67 1] (by decide) (by decide)

/-- A run over steps that carry no parsed fragment, starting from the
fully cleared state, stays cleared and emits nothing. -/
theorem empty_stays (hb : Option Nat) (tr : List Step)
    (h : ∀ s ∈ tr, isRead s = false) :
    runTrace hb (⟨none, none⟩ : SessionState) tr = (⟨none, none⟩, []) := by
  induction tr with
  | nil => rfl
  | cons s rest ih =>
    have hs := h s (by simp)
    have hrest : ∀ x ∈ rest, isRead x = false := fun x hx => h x (by simp [hx])
    simp only [runTrace]
    rcases s with ⟨f, n⟩ | n
    · simp only [isRead] at hs
      rcases hp : parse_fragment f with _ | rec
      · simp only [runStep, process_fragment, hp, ih hrest]
        rfl
      · rw [hp] at hs; simp at hs
    · simp only [runStep]
      rw [heartbeat_no_last]
      simp [ih hrest]

/-- Running read-free steps from a held-card state: if some tick falls
strictly later than `t + T` the session fires exactly one removal and
clears; otherwise nothing at all happens. -/
theorem removal_steps (T : Nat) (hT : T ≠ 0) (tr : List Step) (c : CardData)
    (t : Nat) (ht : 0 < t) (hnoread : ∀ s ∈ tr, isRead s = false) :
    (tr.any (fun s => isTick s && decide (t + T < stepTime s)) = true →
      runTrace (some T) ⟨some c, some t⟩ tr =
        (⟨none, none⟩, [Event.cardRemoved (some c)])) ∧
    (tr.any (fun s => isTick s && decide (t + T < stepTime s)) = false →
      runTrace (some T) ⟨some c, some t⟩ tr = (⟨some c, some t⟩, [])) := by
  induction tr with
  | nil => exact ⟨fun h => by simp at h, fun _ => rfl⟩
  | cons s rest ih =>
    have hs := hnoread s (by simp)
    have hrest : ∀ x ∈ rest, isRead x = false :=
      fun x hx => hnoread x (by simp [hx])
    obtain ⟨ih1, ih2⟩ := ih hrest
    rcases s with ⟨f, n⟩ | n
    · simp only [isRead] at hs
      rcases hp : parse_fragment f with _ | rec
      · constructor
        · intro hany
          simp only [List.any_cons, isTick, Bool.false_and, Bool.false_or] at hany
          simp only [runTrace, runStep, process_fragment, hp, ih1 hany]
          rfl
        · intro hany
          simp only [List.any_cons, isTick, Bool.false_and, Bool.false_or] at hany
          simp only [runTrace, runStep, process_fragment, hp, ih2 hany]
          rfl
      · rw [hp] at hs; simp at hs
    · by_cases hfire : t + T < n
      · have hrun : runTrace (some T) ⟨some c, some t⟩ (Step.tick n :: rest) =
            (⟨none, none⟩, [Event.cardRemoved (some c)]) := by
          simp only [runTrace, runStep]
          rw [heartbeat_fires T (some c) t n (by omega) hT (by omega)]
          rw [empty_stays (some T) rest hrest]
          rfl
        constructor
        · intro _; exact hrun
        · intro hany
          simp only [List.any_cons, isTick, stepTime, Bool.true_and] at hany
          rcases Bool.or_eq_false_iff.mp hany with ⟨h1, _⟩
          rw [decide_eq_false_iff_not] at h1
          exact absurd hfire h1
      · have hskip := heartbeat_skips T (some c) t n (by omega)
        constructor
        · intro hany
          simp only [List.any_cons, isTick, stepTime, Bool.true_and,
            Bool.or_eq_true, decide_eq_true_eq] at hany
          rcases hany with hany | hany
          · omega
          · simp only [runTrace, runStep, hskip, ih1 hany]
            rfl
        · intro hany
          simp only [List.any_cons, isTick, stepTime, Bool.true_and] at hany
          rcases Bool.or_eq_false_iff.mp hany with ⟨_, hany2⟩
          simp only [runTrace, runStep, hskip, ih2 hany2]
          rfl

/-- C4 counterexample: heartbeat interval 10; a valid read of `frag67` at
time 1 is followed only by invalid reads (times 9, 17, 25) and ticks
(times 2, 10, 18, 26).  No valid fragment is processed for 25 > 10 time
units after the last valid read, yet ZERO `card_removed` events fire and
the card is still held at the end: the invalid reads keep refreshing the
heartbeat, contradicting "exactly one CardRemoved fires, and current_card
becomes empty". -/
theorem removal_after_timeout_cex :
    timesOK 1 [Step.frag frag67 1, Step.tick 2, Step.frag frag68 9,
      Step.tick 10, Step.frag frag68 17, Step.tick 18,
      Step.frag frag68 25, Step.tick 26] = true ∧
    ([Step.frag frag67 1, Step.tick 2, Step.frag frag68 9,
      Step.tick 10, Step.frag frag68 17, Step.tick 18,
      Step.frag frag68 25, Step.tick 26].countP isValidRead = 1) ∧
    (∀ s ∈ [Step.frag frag67 1, Step.tick 2, Step.frag frag68 9,
      Step.tick 10, Step.frag frag68 17, Step.tick 18,
      Step.frag frag68 25, Step.tick 26], isValidRead s = true → stepTime s = 1) ∧
    (runTrace (some 10) initState [Step.frag frag67 1, Step.tick 2,
      Step.frag frag68 9, Step.tick 10, Step.frag frag68 17, Step.tick 18,
      Step.frag frag68 25, Step.tick 26]).2.countP isRemovedEvt = 0 ∧
    (runTrace (some 10) initState [Step.frag frag67 1, Step.tick 2,
      Step.frag frag68 9, Step.tick 10, Step.frag frag68 17, Step.tick 18,
      Step.frag frag68 25, Step.tick 26]).1.card = some card67 := by
  decide

/-- C4 amended: with heartbeat enabled at interval `T > 0`, if after a
valid read (at a positive time `t`, from any state) NO fragment at all is
processed — no card read, valid or invalid, both of which refresh the
heartbeat — and some tick occurs later than `t + T`, then the session
fires exactly one `card_removed` (and nothing else), and `current_card`
and `last_read_at` end up empty. -/
theorem removal_fires_exactly_once (T t : Nat) (st : SessionState)
    (rec : CardData) (tr : List Step) (hT : 0 < T) (ht : 0 < t)
    (hv : rec.is_valid = true)
    (hnoread : ∀ s ∈ tr, isRead s = false)
    (hlate : ∃ s ∈ tr, isTick s = true ∧ t + T < stepTime s) :
    runTrace (some T) (process_record st rec t).1 tr =
      (⟨none, none⟩, [Event.cardRemoved (some rec)]) ∧
    (runTrace (some T) (process_record st rec t).1 tr).2.countP isRemovedEvt = 1 ∧
    (runTrace (some T) (process_record st rec t).1 tr).1.card = none := by
  have hmain : runTrace (some T) (process_record st rec t).1 tr =
      (⟨none, none⟩, [Event.cardRemoved (some rec)]) := by
    rw [process_valid_state st rec t hv]
    obtain ⟨s, hs, htick, hlt⟩ := hlate
    have hany : tr.any (fun s => isTick s && decide (t + T < stepTime s)) = true := by
      rw [List.any_eq_true]
      exact ⟨s, hs, by simp [htick, hlt]⟩
    exact (removal_steps T (by omega) tr rec t ht hnoread).1 hany
  refine ⟨hmain, by rw [hmain]; rfl, by rw [hmain]⟩

/-- Witness for the amended C4: valid read at time 1, interval 10, ticks
at 20 and 30. -/
theorem removal_fires_exactly_once_witness :
    runTrace (some 10) (process_record initState card67 1).1
      [Step.tick 20, Step.tick 30] =
      (⟨none, none⟩, [Event.cardRemoved (some card67)]) ∧
    (runTrace (some 10) (process_record initState card67 1).1
      [Step.tick 20, Step.tick 30]).2.countP isRemovedEvt = 1 ∧
    (runTrace (some 10) (process_record initState card67 1).1
      [Step.tick 20, Step.tick 30]).1.card = none :=
  removal_fires_exactly_once 10 1 initState card67 [Step.tick 20, Step.tick 30]
    (by decide) (by decide) (by decide) (by decide)
    ⟨Step.tick 20, by decide, by decide⟩

/-- The last timestamp of a nonempty trace ignores the default. -/
theorem lastTime_indep (d e : Nat) (tr : List Step) (h : tr ≠ []) :
    lastTime d tr = lastTime e tr := by
  rcases tr with _ | ⟨s, rest⟩
  · exact absurd rfl h
  · rfl

/-- A run consisting only of invalid card reads keeps `current_card`
empty, records the time of the last read, and fires no removal. -/
theorem invalid_reads_run (hb : Option Nat) (tr : List Step) :
    ∀ st : SessionState, st.card = none → (∀ s ∈ tr, isInvalidRead s = true) →
    (runTrace hb st tr).1.card = none ∧
    (tr ≠ [] → (runTrace hb st tr).1.last_read_at = some (lastTime 0 tr)) ∧
    (runTrace hb st tr).2.countP isRemovedEvt = 0 := by
  induction tr with
  | nil =>
    intro st hcard _
    exact ⟨hcard, fun h => absurd rfl h, rfl⟩
  | cons s rest ih =>
    intro st hcard hall
    have hs := hall s (by simp)
    have hrest : ∀ x ∈ rest, isInvalidRead x = true :=
      fun x hx => hall x (by simp [hx])
    rcases s with ⟨f, n⟩ | n
    case tick => simp [isInvalidRead] at hs
    simp only [isInvalidRead] at hs
    rcases hp : parse_fragment f with _ | rec
    · rw [hp] at hs; simp at hs
    rw [hp] at hs
    have hinv : rec.is_valid = false := by
      have : (!rec.is_valid) = true := hs
      simp at this
      exact this
    have hstep : process_record st rec n = (⟨st.card, some n⟩, [Event.invalidCard rec]) := by
      simp [process_record, hinv]
    simp only [runTrace, runStep, process_fragment, hp, hstep]
    obtain ⟨ih1, ih2, ih3⟩ := ih ⟨st.card, some n⟩ hcard hrest
    refine ⟨ih1, fun _ => ?_, ?_⟩
    · rcases hrest' : rest with _ | ⟨x, xs⟩
      · simp [runTrace, lastTime_cons, lastTime, stepTime]
      · have hne' : rest ≠ [] := by rw [hrest']; simp
        have h2 := ih2 hne'
        rw [hrest'] at h2
        rw [lastTime_cons, lastTime_indep (stepTime (Step.frag f n)) 0 (x :: xs) (by simp)]
        exact h2
    · simp [List.countP_append, List.countP_cons, isRemovedEvt, ih3]

/-- C9: with heartbeat enabled at interval `T > 0`, if from the empty
initial session only invalid records are processed (a nonempty,
time-monotone run of invalid reads; no valid card was ever inserted) and
the next heartbeat check happens more than `T` after the last of them,
the check fires `card_removed` with the empty card `none` as its
argument — a removal is announced for a card that was never inserted —
and it is the only removal of the whole run. -/
theorem ghost_removal_for_never_inserted (T N : Nat) (tr : List Step)
    (hT : 0 < T) (hne : tr ≠ [])
    (hinv : ∀ s ∈ tr, isInvalidRead s = true)
    (htimes : timesOK 1 tr = true)
    (hlate : lastTime 1 tr + T < N) :
    process_heartbeat (some T) (runTrace (some T) initState tr).1 N =
      ((⟨none, none⟩ : SessionState), [Event.cardRemoved none]) ∧
    (runTrace (some T) initState (tr ++ [Step.tick N])).2.countP
      isRemovedEvt = 1 := by
  obtain ⟨hcard, hlast, hcount⟩ :=
    invalid_reads_run (some T) tr initState rfl hinv
  have hu1 : 1 ≤ lastTime 1 tr := (timesOK_bounds tr 1 htimes).1
  have hstate : (runTrace (some T) initState tr).1 =
      ⟨none, some (lastTime 1 tr)⟩ := by
    have h1 := hlast hne
    rw [lastTime_indep 0 1 tr hne] at h1
    rcases hr : (runTrace (some T) initState tr).1 with ⟨cc, ll⟩
    rw [hr] at hcard h1
    simp only at hcard h1
    rw [hcard, h1]
  have hfire : process_heartbeat (some T) ⟨none, some (lastTime 1 tr)⟩ N =
      ((⟨none, none⟩ : SessionState), [Event.cardRemoved none]) :=
    heartbeat_fires T none (lastTime 1 tr) N (by omega) (by omega) (by omega)
  refine ⟨by rw [hstate]; exact hfire, ?_⟩
  rw [runTrace_append]
  simp only [List.countP_append, hcount]
  simp only [runTrace, runStep, hstate, hfire]
  simp [isRemovedEvt]

/-- Witness for C9: one invalid read of `frag68` at time 1, interval 10,
heartbeat check at time 20. -/
theorem ghost_removal_for_never_inserted_witness :
    process_heartbeat (some 10)
      (runTrace (some 10) initState [Step.frag frag68 1]).1 20 =
      ((⟨none, none⟩ : SessionState), [Event.cardRemoved none]) ∧
    (runTrace (some 10) initState
      ([Step.frag frag68 1] ++ [Step.tick 20])).2.countP isRemovedEvt = 1 :=
  ghost_removal_for_never_inserted 10 20 [Step.frag frag68 1]
    (by decide) (by decide) (by decide) (by decide) (by decide)

/-- `Reader.tick` touches only the stop flag, which it ORs with the
deadline condition. -/
theorem readerTick_spec (d : Option Nat) (st : RdState) (n : Nat) :
    (readerTick d st n).card = st.card ∧
    (readerTick d st n).quit = (st.quit || deadlineHit d n) := by
  rcases d with _ | dl
  · simp [readerTick, deadlineHit]
  · by_cases hc : dl ≠ 0 ∧ dl < n <;> simp [readerTick, deadlineHit, hc]

/-- Every `Reader` loop iteration falls into one of three classes: no
event with the card kept (no byte, buffered byte, unparseable flush, or a
deduplicated re-read), an `invalid_card` with the card kept, or a
`card_inserted` that stores the record and requests stop. -/
theorem readerIter_cases (d : Option Nat) (st : RdState) (b : Option Nat)
    (n : Nat) :
    ((readerIter d st b n).2 = [] ∧
      (readerIter d st b n).1.card = st.card ∧
      (readerIter d st b n).1.quit = (st.quit || deadlineHit d n)) ∨
    (∃ rec, (readerIter d st b n).2 = [Event.invalidCard rec] ∧
      (readerIter d st b n).1.card = st.card ∧
      (readerIter d st b n).1.quit = (st.quit || deadlineHit d n)) ∨
    (∃ rec, (readerIter d st b n).2 = [Event.cardInserted rec] ∧
      (readerIter d st b n).1.card = some rec ∧
      (readerIter d st b n).1.quit = true) := by
  rcases st with ⟨buf, card, lr, quit⟩
  rcases b with _ | byte
  · left
    simp [readerIter, heartbeat_disabled, readerTick_spec]
  · rcases hf : feed_byte buf byte with ⟨buf₁, of⟩
    rcases of with _ | f
    · left
      simp [readerIter, hf, heartbeat_disabled, readerTick_spec]
    · rcases hp : parse_fragment f with _ | rec
      · left
        simp [readerIter, hf, process_fragment, hp, heartbeat_disabled,
          readerTick_spec]
      · by_cases hv : rec.is_valid = false
        · right; left
          refine ⟨rec, ?_⟩
          simp [readerIter, hf, process_fragment, hp, process_record, hv,
            heartbeat_disabled, readerTick_spec, isInsertedEvt]
        · by_cases hcrd : card = some rec
          · left
            simp [readerIter, hf, process_fragment, hp, process_record, hv,
              hcrd, heartbeat_disabled, readerTick_spec, isInsertedEvt]
          · right; right
            refine ⟨rec, ?_⟩
            have hq : (quit || [Event.cardInserted rec].any isInsertedEvt) = true := by
              simp [isInsertedEvt]
            simp [readerIter, hf, process_fragment, hp, process_record, hv,
              hcrd, heartbeat_disabled, readerTick_spec, isInsertedEvt]

/-- A loop whose stop flag is already set does nothing (`while not
self.quit_reader`). -/
theorem readerLoop_stopped (d : Option Nat) (st : RdState)
    (sched : List (Option Nat × Nat)) (h : st.quit = true) :
    readerLoop d st sched = (st, []) := by
  rcases sched with _ | ⟨⟨b, n⟩, rest⟩
  · rfl
  · simp [readerLoop, h]

/-- `firstInserted` skips an `invalid_card` event. -/
theorem firstInserted_cons_invalid (c : CardData) (l : List Event) :
    firstInserted (Event.invalidCard c :: l) = firstInserted l := rfl

/-- `firstInserted` picks up a leading `card_inserted` event. -/
theorem firstInserted_cons_inserted (c : CardData) (l : List Event) :
    firstInserted (Event.cardInserted c :: l) = some c := rfl

/-- A list with no `card_inserted` events has no first inserted card. -/
theorem no_inserted_firstInserted (evs : List Event)
    (h : evs.countP isInsertedEvt = 0) : firstInserted evs = none := by
  induction evs with
  | nil => rfl
  | cons e rest ih =>
    simp only [List.countP_cons] at h
    rcases e with c | c | c
    · simp [isInsertedEvt] at h
    · exact ih (by simpa [isInsertedEvt] using h)
    · exact ih (by simpa [isInsertedEvt] using h)

/-- Starting with no card stored, the `Reader` loop returns exactly the
card of the first `card_inserted` event (or none), and any insertion
leaves the stop flag set. -/
theorem readerLoop_card (d : Option Nat) (sched : List (Option Nat × Nat)) :
    ∀ st : RdState, st.card = none →
    ((readerLoop d st sched).1.card = firstInserted (readerLoop d st sched).2) ∧
    ((readerLoop d st sched).2.countP isInsertedEvt ≠ 0 →
      (readerLoop d st sched).1.quit = true) := by
  induction sched with
  | nil =>
    intro st h
    exact ⟨by simpa [readerLoop, firstInserted] using h,
           fun hc => absurd rfl hc⟩
  | cons p rest ih =>
    intro st h
    rcases p with ⟨b, n⟩
    by_cases hq : st.quit = true
    · rw [readerLoop_stopped d st _ hq]
      exact ⟨by simpa [firstInserted] using h, fun hc => absurd rfl hc⟩
    · rw [Bool.not_eq_true] at hq
      simp only [readerLoop, hq, Bool.false_eq_true, if_false]
      rcases readerIter_cases d st b n with
        ⟨he, hc, _⟩ | ⟨rec, he, hc, _⟩ | ⟨rec, he, hc, hqt⟩
      · rw [he]
        simp only [List.nil_append]
        exact ih _ (by rw [hc, h])
      · rw [he]
        simp only [List.singleton_append, firstInserted_cons_invalid,
          List.countP_cons]
        obtain ⟨ih1, ih2⟩ := ih _ (by rw [hc, h])
        refine ⟨ih1, fun hcnt => ih2 ?_⟩
        simpa [isInsertedEvt] using hcnt
      · rw [he, readerLoop_stopped d _ rest hqt]
        simp only [List.append_nil, List.singleton_append,
          firstInserted_cons_inserted]
        exact ⟨hc, fun _ => hqt⟩

/-- With no deadline, and no insertion anywhere in the run, the `Reader`
loop never changes the stop flag: nothing else can request a stop. -/
theorem readerLoop_no_deadline_quit (sched : List (Option Nat × Nat)) :
    ∀ st : RdState,
    (readerLoop none st sched).2.countP isInsertedEvt = 0 →
    (readerLoop none st sched).1.quit = st.quit := by
  induction sched with
  | nil => intro st _; rfl
  | cons p rest ih =>
    intro st hcount
    rcases p with ⟨b, n⟩
    by_cases hq : st.quit = true
    · rw [readerLoop_stopped none st _ hq]
    · rw [Bool.not_eq_true] at hq
      simp only [readerLoop, hq, Bool.false_eq_true, if_false] at hcount ⊢
      rcases readerIter_cases none st b n with
        ⟨he, _, hqt⟩ | ⟨rec, he, _, hqt⟩ | ⟨rec, he, _, hqt⟩
      · rw [he] at hcount
        simp only [List.nil_append] at hcount
        rw [ih _ hcount, hqt]
        show (st.quit || false) = false
        rw [Bool.or_false]
        exact hq
      · rw [he] at hcount
        simp only [List.singleton_append, List.countP_cons] at hcount
        rw [ih _ (by simpa [isInsertedEvt] using hcount), hqt]
        show (st.quit || false) = false
        rw [Bool.or_false]
        exact hq
      · rw [he] at hcount
        simp [isInsertedEvt] at hcount

/-- With a truthy deadline, once some iteration's timestamp passes it,
the loop ends with the stop flag set (whether through the deadline tick
or an earlier insertion). -/
theorem readerLoop_deadline_stops (dl : Nat) (sched : List (Option Nat × Nat)) :
    ∀ st : RdState, dl ≠ 0 → (∃ p ∈ sched, dl < p.2) →
    (readerLoop (some dl) st sched).1.quit = true := by
  induction sched with
  | nil =>
    intro st _ hex
    obtain ⟨p, hp, _⟩ := hex
    simp at hp
  | cons q rest ih =>
    intro st hdl hex
    rcases q with ⟨b, n⟩
    by_cases hq : st.quit = true
    · rw [readerLoop_stopped (some dl) st _ hq]
      exact hq
    · rw [Bool.not_eq_true] at hq
      simp only [readerLoop, hq, Bool.false_eq_true, if_false]
      rcases hex with ⟨p, hp, hplt⟩
      rcases List.mem_cons.mp hp with hp' | hp'
      · -- the current iteration already passes the deadline
        subst hp'
        have hhit : deadlineHit (some dl) n = true := by
          simp only [deadlineHit, decide_eq_true_eq]
          exact ⟨hdl, hplt⟩
        rcases readerIter_cases (some dl) st b n with
          ⟨_, _, hqt⟩ | ⟨rec, _, _, hqt⟩ | ⟨rec, _, _, hqt⟩ <;>
          (rw [readerLoop_stopped (some dl) _ rest (by simp [hqt, hhit])]
           simp [hqt, hhit])
      · -- the qualifying iteration is later
        exact ih _ hdl ⟨p, hp', hplt⟩

/-- C8: for a positive timeout `k`, `Reader.read` runs with the deadline
`start + k`; on any schedule in which no `card_inserted` fires and some
iteration happens after the deadline, the loop stops (the deadline tick
sets the stop flag) and the returned card is empty — a timeout yields
"no card", not an error (the model is a total function).  And whenever a
`card_inserted` fires, the loop stops and exactly that first inserted
record is what `read` returns. -/
theorem single_shot_read_semantics (k start : Nat) (buf₀ : List Nat)
    (lr₀ : Option Nat) (sched : List (Option Nat × Nat)) (hk : 0 < k) :
    ((readerRead (some k) start buf₀ lr₀ sched).2.countP isInsertedEvt = 0 →
      (∃ p ∈ sched, start + k < p.2) →
      (readerRead (some k) start buf₀ lr₀ sched).1.card = none ∧
      (readerRead (some k) start buf₀ lr₀ sched).1.quit = true) ∧
    (∀ c, firstInserted (readerRead (some k) start buf₀ lr₀ sched).2 = some c →
      (readerRead (some k) start buf₀ lr₀ sched).1.card = some c ∧
      (readerRead (some k) start buf₀ lr₀ sched).1.quit = true) := by
  have hdl : readDeadline (some k) start = some (start + k) := by
    simp only [readDeadline, ne_eq]
    rw [if_pos (by omega)]
  have hread : readerRead (some k) start buf₀ lr₀ sched =
      readerLoop (some (start + k)) ⟨buf₀, none, lr₀, false⟩ sched := by
    rw [readerRead, hdl]
  obtain ⟨hcard, hquit⟩ :=
    readerLoop_card (some (start + k)) sched ⟨buf₀, none, lr₀, false⟩ rfl
  constructor
  · intro hcount hex
    rw [hread] at hcount ⊢
    refine ⟨?_, ?_⟩
    · rw [hcard]
      exact no_inserted_firstInserted _ hcount
    · exact readerLoop_deadline_stops (start + k) sched
        ⟨buf₀, none, lr₀, false⟩ (by omega) hex
  · intro c hfst
    rw [hread] at hfst ⊢
    refine ⟨by rw [hcard]; exact hfst, ?_⟩
    refine hquit ?_
    intro hzero
    rw [no_inserted_firstInserted _ hzero] at hfst
    exact Option.noConfusion hfst

/-- Witness for C8: timeout 10 from time 0; schedule: an idle poll at
time 5, then one at time 20 (past the deadline) — no card is read, the
read returns none with the loop stopped. -/
theorem single_shot_read_semantics_witness :
    (readerRead (some 10) 0 [] none [(none, 5), (none, 20)]).1.card = none ∧
    (readerRead (some 10) 0 [] none [(none, 5), (none, 20)]).1.quit = true :=
  (single_shot_read_semantics 10 0 [] none [(none, 5), (none, 20)]
      (by decide)).1 (by decide) ⟨(none, 20), by decide, by decide⟩

/-- C10: `Reader.read` with `timeout=0` sets no deadline at all (Python's
`if timeout:` treats `0` as false, like `None`), so the call behaves
exactly — state for state, event for event, on every schedule — like a
read with no timeout; and with no deadline, a run in which no valid card
is inserted never sets the stop flag by itself (it blocks until a card or
an external `stop()`), rather than returning the empty result
immediately. -/
theorem read_timeout_zero_is_no_timeout (start : Nat) (buf₀ : List Nat)
    (lr₀ : Option Nat) (sched : List (Option Nat × Nat)) :
    readDeadline (some 0) start = none ∧
    readerRead (some 0) start buf₀ lr₀ sched =
      readerRead none start buf₀ lr₀ sched ∧
    ((readerRead none start buf₀ lr₀ sched).2.countP isInsertedEvt = 0 →
      (readerRead none start buf₀ lr₀ sched).1.quit = false) := by
  have h0 : readDeadline (some 0) start = none := by
    simp [readDeadline]
  have hnone0 : readDeadline none start = none := rfl
  refine ⟨h0, by rw [readerRead, readerRead, h0, hnone0], fun hcount => ?_⟩
  have hnone : readDeadline none start = none := rfl
  rw [readerRead, hnone] at hcount ⊢
  exact readerLoop_no_deadline_quit sched ⟨buf₀, none, lr₀, false⟩ hcount

/-- Witness for C10: an idle schedule at a late time; with timeout 0 the
run equals the no-timeout run and does not stop. -/
theorem read_timeout_zero_is_no_timeout_witness :
    readerRead (some 0) 5 [] none [(none, 100)] =
      readerRead none 5 [] none [(none, 100)] ∧
    (readerRead none 5 [] none [(none, 100)]).1.quit = false :=
  ⟨(read_timeout_zero_is_no_timeout 5 [] none [(none, 100)]).2.1,
   (read_timeout_zero_is_no_timeout 5 [] none [(none, 100)]).2.2 (by decide)⟩

end Rdm6300
